import Mathlib

/-!
Verification development for the `rustixml` repository.

Part 1 embeds the commit-history semantic retrieval and context-assembly
engine whose integration contract the repository's hook exposes.  The engine
itself ships in an external package whose source is not in the repository, so
every definition in this part is modelled from the specification text (each
such definition's doc comment starts with `Modelled from the spec:`).

Part 2 embeds `scripts/generate_test_cases.py`, the test-case generator that
is present in the repository, as a shallow embedding over an abstract file
system (a function from path to optional decoded content).
-/

namespace Rustixml

/-! ### Part 1: the retrieval core, modelled from the spec -/

/-- Modelled from the spec: a Commit Record (§3) — identifier (content hash),
message, diff, timestamp, and a cached fixed-length embedding.  The engine
holding this type is external to the repository. -/
structure CommitRecord where
  id : String
  message : String
  diff : String
  timestamp : Nat
  embedding : List ℚ
deriving DecidableEq, Repr

/-- Modelled from the spec: the Configuration (§3, §6) — `db_path`,
`repo_path`, `max_results` (integer ≥ 1), `similarity_threshold` (in `[0,1]`),
the two enrichment toggles, and the assembler's length budget (§4.6). -/
structure Configuration where
  db_path : String
  repo_path : String
  max_results : Nat
  similarity_threshold : ℚ
  enable_delta_analysis : Bool
  enable_pattern_detection : Bool
  context_budget : Nat
deriving DecidableEq, Repr

/-- Modelled from the spec: `ConfigurationError` (§7) — invalid paths or
thresholds, raised once at Hook construction. -/
inductive ConfigurationError where
  | badPath
  | badMaxResults
  | badThreshold
deriving DecidableEq, Repr

/-- Modelled from the spec: the recoverable stage-level error kinds (§7):
`EmbeddingError`, `StoreUnavailable`, `TimeoutExceeded`. -/
inductive StageError where
  | embeddingError
  | storeUnavailable
  | timeoutExceeded
deriving DecidableEq, Repr

/-- Modelled from the spec: the Hook instance (§3) — bound to one
Configuration and holding the handle to the Vector Store (modelled as the
list of stored Commit Records). -/
structure Hook where
  config : Configuration
  store : List CommitRecord
deriving DecidableEq, Repr

/-- Modelled from the spec: an incoming prompt event's `context` mapping
(§6) — `cwd`, `conversationId`, `messageId`. -/
structure EventContext where
  cwd : String
  conversationId : String
  messageId : String
deriving DecidableEq, Repr

/-- Modelled from the spec: the input event (§6) — at least `userPrompt`
and a `context` mapping. -/
structure PromptEvent where
  userPrompt : String
  context : EventContext
deriving DecidableEq, Repr

/-- Modelled from the spec: the output mapping (§6) with an optional
`additionalSystemPrompt` key. -/
structure InjectionResult where
  additionalSystemPrompt : Option String
deriving DecidableEq, Repr

instance {e a : Type} [DecidableEq e] [DecidableEq a] : DecidableEq (Except e a) :=
  fun x y =>
    match x, y with
    | .error ex, .error ey =>
      match decEq ex ey with
      | isTrue h => isTrue (h ▸ rfl)
      | isFalse h => isFalse fun hh => h (Except.error.inj hh)
    | .error _, .ok _ => isFalse fun hh => Except.noConfusion hh
    | .ok _, .error _ => isFalse fun hh => Except.noConfusion hh
    | .ok ax, .ok ay =>
      match decEq ax ay with
      | isTrue h => isTrue (h ▸ rfl)
      | isFalse h => isFalse fun hh => h (Except.ok.inj hh)

/-- Modelled from the spec: the empty injection result — "absence or an
empty mapping means nothing to inject" (§6). -/
def emptyInjection : InjectionResult := ⟨none⟩

/-- Modelled from the spec: a Search Result (§3) — commit reference and
similarity score; the rank is the position in the returned sequence. -/
structure SearchResult where
  ref : String
  score : ℚ
deriving DecidableEq, Repr

/-- Modelled from the spec: minimum input length below which the Embedder
fails with `EmbeddingError` (§4.2). -/
def minTextLength : Nat := 1

/-- Modelled from the spec: the Embedder (§4.2) — `embed(text) -> vector`,
deterministic for identical input, failing with `EmbeddingError` on input
shorter than the minimum length.  The concrete vector is a model of the
assumed external embedding capability. -/
def embed (text : String) : Except StageError (List ℚ) :=
  if text.length < minTextLength then .error .embeddingError
  else .ok [(text.length : ℚ)]

/-- Modelled from the spec: dot-product similarity between two vectors
(§4.1 allows cosine or dot-product similarity). -/
def dot : List ℚ → List ℚ → ℚ
  | a :: as, b :: bs => a * b + dot as bs
  | _, _ => 0

/-- Modelled from the spec: a scored candidate inside the Similarity
Ranker — a stored record paired with its similarity score to the query. -/
structure Scored where
  record : CommitRecord
  score : ℚ
deriving DecidableEq, Repr

/-- Modelled from the spec: pair every stored record with its similarity
score to the query vector. -/
def scoreCandidates (qv : List ℚ) (store : List CommitRecord) : List Scored :=
  store.map fun r => { record := r, score := dot qv r.embedding }

/-- Modelled from the spec: the ranking order (§4.1, §4.3) — descending by
score, ties broken by most-recent timestamp first. -/
def rankRel (a b : Scored) : Prop :=
  b.score < a.score ∨ (a.score = b.score ∧ b.record.timestamp ≤ a.record.timestamp)

instance : DecidableRel rankRel := fun a b => by
  unfold rankRel; exact inferInstance

instance : IsTotal Scored rankRel where
  total a b := by
    unfold rankRel
    rcases lt_trichotomy a.score b.score with h | h | h
    · exact Or.inr (Or.inl h)
    · rcases Nat.le_total a.record.timestamp b.record.timestamp with ht | ht
      · exact Or.inr (Or.inr ⟨h.symm, ht⟩)
      · exact Or.inl (Or.inr ⟨h, ht⟩)
    · exact Or.inl (Or.inl h)

instance : IsTrans Scored rankRel where
  trans a b c hab hbc := by
    unfold rankRel at *
    rcases hab with h₁ | ⟨h₁, t₁⟩
    · rcases hbc with h₂ | ⟨h₂, _⟩
      · exact Or.inl (h₂.trans h₁)
      · exact Or.inl (h₂ ▸ h₁)
    · rcases hbc with h₂ | ⟨h₂, t₂⟩
      · exact Or.inl (h₁ ▸ h₂)
      · exact Or.inr ⟨h₁.trans h₂, t₂.trans t₁⟩

/-- Modelled from the spec: the Vector Store's `query(vector, k)` (§4.1) —
the `k` nearest records by similarity, ties broken by most-recent timestamp
first; returns an empty result set for an empty store. -/
def storeQuery (store : List CommitRecord) (qv : List ℚ) (k : Nat) : List Scored :=
  (List.insertionSort rankRel (scoreCandidates qv store)).take k

/-- Modelled from the spec: the overfetch factor (§4.3), default 2. -/
def overfetchFactor : Nat := 2

/-- Modelled from the spec: the candidates the Ranker retrieves from the
store — `max_results * overfetch_factor` of them (§4.3). -/
def fetchCandidates (cfg : Configuration) (store : List CommitRecord) (qv : List ℚ) :
    List Scored :=
  storeQuery store qv (cfg.max_results * overfetchFactor)

/-- Modelled from the spec: the candidates surviving the threshold filter —
any candidate scoring below `similarity_threshold` is dropped (§4.3). -/
def keptCandidates (cfg : Configuration) (store : List CommitRecord) (qv : List ℚ) :
    List Scored :=
  (fetchCandidates cfg store qv).filter fun s => cfg.similarity_threshold ≤ s.score

/-- Modelled from the spec: surviving candidates sorted descending by score,
tie-break by recency (§4.3). -/
def rankedCandidates (cfg : Configuration) (store : List CommitRecord) (qv : List ℚ) :
    List Scored :=
  List.insertionSort rankRel (keptCandidates cfg store qv)

/-- Modelled from the spec: project a scored candidate to the Search Result
exposed outside the Ranker. -/
def toSearchResult (s : Scored) : SearchResult :=
  { ref := s.record.id, score := s.score }

/-- Modelled from the spec: the Similarity Ranker (§4.3) — embed the query
once, retrieve overfetched candidates, drop those below the threshold, sort
descending with recency tie-break, truncate to `max_results`. -/
def rankerQuery (cfg : Configuration) (store : List CommitRecord) (queryText : String) :
    Except StageError (List SearchResult) :=
  match embed queryText with
  | .error e => .error e
  | .ok qv => .ok (((rankedCandidates cfg store qv).take cfg.max_results).map toSearchResult)

/-- Modelled from the spec: the size ceiling above which the Delta Analyzer
truncates its analysis (§4.4). -/
def diffSizeCeiling : Nat := 10000

/-- Modelled from the spec: a Delta Summary (§3, §4.4) — touched paths,
added/removed line counts, and a truncation flag. -/
structure DeltaSummary where
  touched : List String
  added : Nat
  removed : Nat
  truncated : Bool
deriving DecidableEq, Repr

/-- Modelled from the spec: the Delta Analyzer (§4.4) — a compact structural
summary of one commit's diff, truncated (and flagged) beyond the size
ceiling; a zero-change diff yields an empty summary rather than a failure. -/
def analyzeDelta (diff : String) : DeltaSummary :=
  let truncated := decide (diffSizeCeiling < diff.length)
  let body := if truncated then diff.take diffSizeCeiling else diff
  let lines := body.splitOn "\n"
  { touched := (lines.filter fun l => l.startsWith "+++ ").map fun l => l.drop 4
    added := (lines.filter fun l => l.startsWith "+" && !l.startsWith "+++").length
    removed := (lines.filter fun l => l.startsWith "-" && !l.startsWith "---").length
    truncated := truncated }

/-- Modelled from the spec: a Pattern Observation (§3) — a label, the commit
references exhibiting it, and a support count. -/
structure PatternObservation where
  label : String
  commits : List String
  support : Nat
deriving DecidableEq, Repr

/-- Modelled from the spec: the minimum support count for a group to become
a reportable pattern (§4.5), default 2. -/
def minSupport : Nat := 2

/-- Modelled from the spec: the file extension used in a structural
signature (§4.5). -/
def extensionOf (path : String) : String :=
  match (path.splitOn ".").reverse with
  | e :: _ :: _ => e
  | _ => ""

/-- Modelled from the spec: the add/remove ratio bucket of a structural
signature (§4.5). -/
def ratioBucket (d : DeltaSummary) : String :=
  if d.removed = 0 then "add"
  else if d.added = 0 then "del"
  else if d.removed ≤ d.added then "grow"
  else "shrink"

/-- Modelled from the spec: a commit's structural signature (§4.5) — the
sorted set of touched-path extensions plus an add/remove ratio bucket. -/
def signature (d : DeltaSummary) : String :=
  String.intercalate "," (List.insertionSort (· ≤ ·) (d.touched.map extensionOf).dedup)
    ++ ":" ++ ratioBucket d

/-- Modelled from the spec: the Pattern Detector's output order (§4.5) —
descending support count, tie-break by lexicographic label. -/
def patternRel (a b : PatternObservation) : Prop :=
  b.support < a.support ∨ (a.support = b.support ∧ a.label ≤ b.label)

instance : DecidableRel patternRel := fun a b => by
  unfold patternRel; exact inferInstance

/-- Modelled from the spec: the Pattern Detector (§4.5) — group the ranked
candidates by structural signature, keep groups reaching the minimum support
count, order by descending support then label. -/
def detectPatterns (refs : List String) (sums : List DeltaSummary) :
    List PatternObservation :=
  let pairs := refs.zip sums
  let labels := (pairs.map fun p => signature p.2).dedup
  let obs := labels.map fun l =>
    let grp := pairs.filter fun p => signature p.2 == l
    { label := l, commits := grp.map Prod.fst, support := grp.length }
  List.insertionSort patternRel (obs.filter fun o => minSupport ≤ o.support)

/-- Modelled from the spec: the Context Assembler's core loop (§4.6) —
render entries in rank order into the remaining budget; stop adding entries
once the budget would be exceeded (an entry is an all-or-nothing unit). -/
def assembleEntries (budget : Nat) : List String → String
  | [] => ""
  | e :: rest =>
    if e.length ≤ budget then e ++ assembleEntries (budget - e.length) rest
    else ""

/-- Modelled from the spec: the commit diff behind a search result, looked
up in the store by commit reference. -/
def lookupDiff (store : List CommitRecord) (ref : String) : String :=
  match store.find? fun c => c.id == ref with
  | some c => c.diff
  | none => ""

/-- Modelled from the spec: the rendered form of one Delta Summary inside a
result entry. -/
def renderDelta (d : DeltaSummary) : String :=
  " [files " ++ toString d.touched.length ++ " +" ++ toString d.added
    ++ " -" ++ toString d.removed ++ (if d.truncated then " truncated" else "") ++ "]"

/-- Modelled from the spec: the rendered form of one ranked result — the
all-or-nothing unit of the assembler (§4.6), enriched with a delta summary
when `enable_delta_analysis` is set. -/
def renderEntry (cfg : Configuration) (store : List CommitRecord) (r : SearchResult) :
    String :=
  "commit " ++ r.ref ++ " (score " ++ toString r.score ++ ")"
    ++ (if cfg.enable_delta_analysis then renderDelta (analyzeDelta (lookupDiff store r.ref))
        else "")
    ++ "\n"

/-- Modelled from the spec: the rendered form of one Pattern Observation. -/
def renderPattern (o : PatternObservation) : String :=
  "pattern " ++ o.label ++ " (support " ++ toString o.support ++ ")\n"

/-- Modelled from the spec: the full list of formatted entries handed to the
assembler — one per ranked result, then the pattern observations when
`enable_pattern_detection` is set (§2, §4.5, §4.6). -/
def renderedEntries (cfg : Configuration) (store : List CommitRecord)
    (ranked : List SearchResult) : List String :=
  ranked.map (renderEntry cfg store)
    ++ (if cfg.enable_pattern_detection then
          (detectPatterns (ranked.map fun r => r.ref)
            (ranked.map fun r => analyzeDelta (lookupDiff store r.ref))).map renderPattern
        else [])

/-- Modelled from the spec: the Context Assembler (§4.6) — merges the ranked
results and optional enrichment into one bounded-length text block. -/
def assembleContext (cfg : Configuration) (store : List CommitRecord)
    (ranked : List SearchResult) : String :=
  assembleEntries cfg.context_budget (renderedEntries cfg store ranked)

/-- Modelled from the spec: wrap the assembled text into the output mapping;
an empty text means nothing to inject (§4.6, §6). -/
def finishPipeline (cfg : Configuration) (store : List CommitRecord)
    (ranked : List SearchResult) : InjectionResult :=
  let text := assembleContext cfg store ranked
  if text = "" then emptyInjection else ⟨some text⟩

/-- Modelled from the spec: the internal pipeline behind the Hook (§2,
§4.7.2) — ranker, then conditional enrichment and assembly; any stage error
surfaces here as an `Except.error`. -/
def runPipeline (h : Hook) (e : PromptEvent) : Except StageError InjectionResult :=
  match rankerQuery h.config h.store e.userPrompt with
  | .error err => .error err
  | .ok ranked => .ok (finishPipeline h.config h.store ranked)

/-- Modelled from the spec: the Hook's public operation (§4.7) — any
exception raised by any stage is caught at this boundary and converted into
an empty injection result. -/
def on_prompt_submit (h : Hook) (e : PromptEvent) : InjectionResult :=
  match runPipeline h e with
  | .ok r => r
  | .error _ => emptyInjection

/-- Modelled from the spec: configuration validity (§3, §6) — `max_results`
a positive integer, `similarity_threshold` in `[0,1]`, non-empty paths. -/
def validConfig (cfg : Configuration) : Prop :=
  cfg.db_path ≠ "" ∧ cfg.repo_path ≠ "" ∧ 1 ≤ cfg.max_results ∧
    0 ≤ cfg.similarity_threshold ∧ cfg.similarity_threshold ≤ 1

instance : DecidablePred validConfig := fun cfg => by
  unfold validConfig; exact inferInstance

/-- Modelled from the spec: Hook construction (§4.7, §7) — validates the
Configuration, raising `ConfigurationError` (the only error allowed to reach
the caller) when it is invalid, and opens the Vector Store handle. -/
def constructHook (cfg : Configuration) (store : List CommitRecord) :
    Except ConfigurationError Hook :=
  if cfg.db_path = "" ∨ cfg.repo_path = "" then .error .badPath
  else if cfg.max_results < 1 then .error .badMaxResults
  else if cfg.similarity_threshold < 0 ∨ 1 < cfg.similarity_threshold then .error .badThreshold
  else .ok { config := cfg, store := store }

/-- Modelled from the spec: rewriting only the two enrichment toggles of a
Configuration (§4.5, §8). -/
def setEnrichment (cfg : Configuration) (d p : Bool) : Configuration :=
  { cfg with enable_delta_analysis := d, enable_pattern_detection := p }

/-! ### Part 2: `scripts/generate_test_cases.py`

The script reads a directory of `.ixml` grammar files and matching `.inp`
input files and emits a JSON document of curated test cases.  The file
system is embedded as a function `fs : String → Option String` returning the
decoded content of a path, or `none` when the file is missing or not
decodable as UTF-8 (the two errors `read_file_safe` catches). -/

/-- `SKIP_TESTS` from the script: test stems excluded up front. -/
def SKIP_TESTS : List String :=
  ["unicode-version-diagnostic", "version-decl", "version-decl.2", "ws-and-delim"]

/-- `CATEGORIES` from the script: the category mapping, in source order. -/
def CATEGORIES : List (String × List String) :=
  [("Basic Examples", ["aaa", "test", "empty-group", "lf", "tab"]),
   ("Arithmetic & Math",
    ["arith", "expr", "expr1", "expr2", "expr3", "expr4", "expr5", "expr6",
     "poly", "hash"]),
   ("Data Formats",
    ["json", "json1", "xml", "xml1", "vcard", "diary", "diary2", "diary3"]),
   ("Email & Addresses", ["email", "address"]),
   ("Text Processing",
    ["string", "marked", "para-test", "nested-comment", "range-comments",
     "element-content", "attribute-value"]),
   ("Character Classes",
    ["range", "ranges", "ranges1", "hex", "hex1", "hex3",
     "unicode-classes", "unicode-range", "unicode-range1", "unicode-range2"]),
   ("Programming Languages", ["program", "xpath"])]

/-- `get_category` from the script: the first category whose list contains
the test name, else `Other`. -/
def get_category (test_name : String) : String :=
  match CATEGORIES.find? fun p => p.2.contains test_name with
  | some p => p.1
  | none => "Other"

/-- Python's `str.strip()`: drop leading and trailing whitespace. -/
def pyStrip (s : String) : String :=
  ⟨((s.data.dropWhile Char.isWhitespace).reverse.dropWhile Char.isWhitespace).reverse⟩

/-- The script's `test_name.replace("-", " ")`: Python `str.replace` with a
one-character pattern, i.e. a character-wise substitution. -/
def replaceDash (s : String) : String :=
  ⟨s.data.map fun c => if c = '-' then ' ' else c⟩

/-- `read_file_safe` from the script: read and strip a file, `None` when the
file is missing or not valid UTF-8 (modelled by `fs` returning `none`). -/
def read_file_safe (fs : String → Option String) (path : String) : Option String :=
  (fs path).map pyStrip

/-- Python's `str.title()` on one character stream: an alphabetic character
is uppercased when the previous character is not alphabetic, lowercased
otherwise. -/
def titleCaseGo : Bool → List Char → List Char
  | _, [] => []
  | prevAlpha, c :: cs =>
    if c.isAlpha then
      (if prevAlpha then c.toLower else c.toUpper) :: titleCaseGo true cs
    else
      c :: titleCaseGo false cs

/-- Python's `str.title()`. -/
def titleCase (s : String) : String :=
  ⟨titleCaseGo false s.data⟩

/-- The literal `descriptions` table inside `get_description`. -/
def descriptions : List (String × String) :=
  [("arith", "Parenthesized arithmetic expression with operators"),
   ("email", "Email address validation with complex character classes"),
   ("address", "Postal address parsing"),
   ("json", "Simple JSON parser"),
   ("json1", "JSON with nested objects"),
   ("xml", "Basic XML parser"),
   ("xml1", "XML with attributes"),
   ("expr", "Expression with precedence"),
   ("diary", "Diary entry with date parsing"),
   ("vcard", "vCard contact format"),
   ("program", "Simple programming language"),
   ("xpath", "XPath expression parsing"),
   ("hex", "Hexadecimal number parsing"),
   ("string", "String literal parsing"),
   ("range", "Character range matching"),
   ("unicode-classes", "Unicode character class support")]

/-- `get_description` from the script. -/
def get_description (test_name : String) : String :=
  match descriptions.find? fun p => p.1 == test_name with
  | some p => p.2
  | none => titleCase (replaceDash test_name)

/-- One generated test case (the dict built inside `extract_test_cases`). -/
structure TestCase where
  name : String
  id : String
  grammar : String
  input : String
  description : String
deriving DecidableEq, Repr

/-- `Path.stem` for a file name ending in `.ixml`: the name minus its
five-character suffix. -/
def stemOf (fileName : String) : String :=
  ⟨fileName.data.take (fileName.data.length - 5)⟩

/-- Appending a test case under a category key of an insertion-ordered
mapping (Python dict: existing key keeps its place, new key goes last). -/
def addToCategory : List (String × List TestCase) → String → TestCase →
    List (String × List TestCase)
  | [], cat, tc => [(cat, [tc])]
  | (c, ts) :: rest, cat, tc =>
    if c == cat then (c, ts ++ [tc]) :: rest
    else (c, ts) :: addToCategory rest cat tc

/-- The body of the `for ixml_file in sorted(...)` loop of
`extract_test_cases`: skip listed stems, skip missing/empty grammar, skip
missing/empty input, otherwise append the built test case to its category. -/
def processFile (fs : String → Option String)
    (categories : List (String × List TestCase)) (fileName : String) :
    List (String × List TestCase) :=
  let test_name := stemOf fileName
  if SKIP_TESTS.contains test_name then categories
  else
    match read_file_safe fs fileName with
    | none => categories
    | some grammar =>
      if grammar = "" then categories
      else
        match read_file_safe fs (test_name ++ ".inp") with
        | none => categories
        | some input_text =>
          if input_text = "" then categories
          else
            let category := get_category test_name
            let tc : TestCase :=
              { name := titleCase (replaceDash test_name)
                id := test_name
                grammar := grammar
                input := input_text
                description := get_description test_name }
            addToCategory categories category tc

/-- Python's `<` on strings, code-point lexicographic, on the underlying
character lists. -/
def charsLt : List Char → List Char → Bool
  | _, [] => false
  | [], _ :: _ => true
  | a :: as, b :: bs =>
    if a.toNat < b.toNat then true
    else if b.toNat < a.toNat then false
    else charsLt as bs

/-- The comparison behind Python's `sorted` on file names: `a ≤ b` iff not
`b < a` in code-point lexicographic order. -/
def fileLe (a b : String) : Prop := charsLt b.data a.data = false

instance : DecidableRel fileLe := fun a b =>
  instDecidableEqBool (charsLt b.data a.data) false

/-- `extract_test_cases` from the script: process the globbed `.ixml` file
names in sorted order. -/
def extract_test_cases (fs : String → Option String) (globFiles : List String) :
    List (String × List TestCase) :=
  (List.insertionSort fileLe globFiles).foldl (processFile fs) []

/-- The `stats` object of the generated JSON. -/
structure Stats where
  total_tests : Nat
  categories : Nat
deriving DecidableEq, Repr

/-- The generated JSON document (`output` in `main`). -/
structure GenOutput where
  version : String
  description : String
  categories : List (String × List TestCase)
  stats : Stats
deriving DecidableEq, Repr

/-- `category_order` from `main`. -/
def category_order : List String :=
  ["Basic Examples", "Arithmetic & Math", "Data Formats", "Email & Addresses",
   "Text Processing", "Character Classes", "Programming Languages", "Other"]

/-- `main` from the script (minus the printing): extract the test cases,
reorder the categories along `category_order`, and build the JSON value. -/
def mainOutput (fs : String → Option String) (globFiles : List String) : GenOutput :=
  let categories := extract_test_cases fs globFiles
  let sorted_categories :=
    category_order.filterMap fun cat => (List.lookup cat categories).map fun ts => (cat, ts)
  { version := "0.2.0"
    description := "Passing test cases from the iXML test suite"
    categories := sorted_categories
    stats :=
      { total_tests := (categories.map fun p => p.2.length).sum
        categories := categories.length } }

/-! ### Derived predicates and concrete instances used by the theorems -/

/-- Concatenation of formatted entries in order (the shape of an assembler
output that includes a prefix of the entries whole). -/
def concatEntries : List String → String
  | [] => ""
  | e :: es => e ++ concatEntries es

/-- The per-file exclusion condition of the generator loop: the stem is
skipped, or the grammar file or matching `.inp` file is missing, not
decodable (the model's `fs` returns `none` for both), or empty after
stripping whitespace. -/
def excludedCond (fs : String → Option String) (file : String) : Prop :=
  SKIP_TESTS.contains (stemOf file) = true ∨
    read_file_safe fs file = none ∨ read_file_safe fs file = some "" ∨
    read_file_safe fs (stemOf file ++ ".inp") = none ∨
    read_file_safe fs (stemOf file ++ ".inp") = some ""

/-- All test cases of a category mapping, in order. -/
def allCases : List (String × List TestCase) → List TestCase
  | [] => []
  | p :: rest => p.2 ++ allCases rest

/-- A test stem appears somewhere in a category mapping. -/
def mentions (cats : List (String × List TestCase)) (s : String) : Prop :=
  ∃ tc ∈ allCases cats, tc.id = s

/-- Every test case of a category mapping has non-empty grammar and input. -/
def goodCases (cats : List (String × List TestCase)) : Prop :=
  ∀ tc ∈ allCases cats, tc.grammar ≠ "" ∧ tc.input ≠ ""

/-- The test-case dict the generator builds for one included file. -/
def mkCase (fs : String → Option String) (file : String) : TestCase :=
  { name := titleCase (replaceDash (stemOf file))
    id := stemOf file
    grammar := (read_file_safe fs file).getD ""
    input := (read_file_safe fs (stemOf file ++ ".inp")).getD ""
    description := get_description (stemOf file) }

/-- The structural invariant of the category mapping built by the generator:
keys are distinct, keys are known category names, and no category is
empty. -/
def keysGood (cats : List (String × List TestCase)) : Prop :=
  (cats.map Prod.fst).Nodup ∧
    (∀ k ∈ cats.map Prod.fst, k ∈ category_order) ∧
    ∀ p ∈ cats, p.2 ≠ []

/-- A valid configuration used to instantiate the general theorems on a
concrete input. -/
def wConfig : Configuration :=
  { db_path := "db", repo_path := "repo", max_results := 2,
    similarity_threshold := 0, enable_delta_analysis := true,
    enable_pattern_detection := true, context_budget := 500 }

/-- The configuration of the spec's threshold scenario (§8):
`max_results = 2`, `similarity_threshold = 0.7`. -/
def scenarioConfig : Configuration :=
  { db_path := "db", repo_path := "repo", max_results := 2,
    similarity_threshold := 7/10, enable_delta_analysis := false,
    enable_pattern_detection := false, context_budget := 500 }

/-- The store of the spec's threshold scenario (§8): three commits whose
similarity scores against the query `"x"` (embedded as the vector `[1]`)
are `0.9`, `0.75` and `0.4`. -/
def scenarioStore : List CommitRecord :=
  [{ id := "c1", message := "m1", diff := "", timestamp := 3, embedding := [9/10] },
   { id := "c2", message := "m2", diff := "", timestamp := 2, embedding := [3/4] },
   { id := "c3", message := "m3", diff := "", timestamp := 1, embedding := [2/5] }]

/-- A well-formed prompt event with a non-empty prompt. -/
def wEvent : PromptEvent :=
  { userPrompt := "x",
    context := { cwd := "/", conversationId := "conv", messageId := "msg" } }

/-- A prompt event with an empty prompt; the Embedder fails on it. -/
def wEmptyEvent : PromptEvent :=
  { userPrompt := "",
    context := { cwd := "/", conversationId := "conv", messageId := "msg" } }

/-- A tiny concrete file system holding one grammar/input pair, used to
instantiate the generator theorems. -/
def wFs : String → Option String := fun p =>
  if p = "aaa.ixml" then some " S: a. " else
  if p = "aaa.inp" then some "aaa" else none

/-! ### Helper lemmas -/

lemma assembleEntries_length_le : ∀ (es : List String) (b : Nat),
    (assembleEntries b es).length ≤ b
  | [], b => Nat.zero_le b
  | e :: es, b => by
    by_cases h : e.length ≤ b
    · have ih := assembleEntries_length_le es (b - e.length)
      simp only [assembleEntries, if_pos h, String.length_append]
      omega
    · simp [assembleEntries, if_neg h]

lemma assembleEntries_prefix : ∀ (es : List String) (b : Nat),
    ∃ n, assembleEntries b es = concatEntries (es.take n)
  | [], b => ⟨0, rfl⟩
  | e :: es, b => by
    by_cases h : e.length ≤ b
    · obtain ⟨n, hn⟩ := assembleEntries_prefix es (b - e.length)
      exact ⟨n + 1, by simp [assembleEntries, if_pos h, concatEntries, hn]⟩
    · exact ⟨0, by simp [assembleEntries, if_neg h, concatEntries]⟩

lemma rankRel_score_le {a b : Scored} (h : rankRel a b) : b.score ≤ a.score := by
  rcases h with h | ⟨h, _⟩
  · exact le_of_lt h
  · exact le_of_eq h.symm

/-! ### Claim theorems -/

/-- C7: embedding the same text twice yields identical vectors — `embed` is
a deterministic function of its input. -/
theorem embed_deterministic (t : String) (v₁ v₂ : List ℚ)
    (h₁ : embed t = .ok v₁) (h₂ : embed t = .ok v₂) : v₁ = v₂ := by
  rw [h₁] at h₂
  exact Except.ok.inj h₂

theorem embed_deterministic_witness :
    embed "x" = .ok [(1 : ℚ)] ∧ [(1 : ℚ)] = [(1 : ℚ)] :=
  ⟨rfl, embed_deterministic "x" [1] [1] rfl rfl⟩

/-- C5: the Context Assembler's output never exceeds the configured length
budget, it is the concatenation of a prefix of the formatted entries (an
entry is included whole or not at all), and assembling the same ranked
input with the same configuration twice yields the identical output. -/
theorem assembler_bounded_whole_deterministic (cfg : Configuration)
    (store : List CommitRecord) (ranked : List SearchResult) :
    (assembleContext cfg store ranked).length ≤ cfg.context_budget ∧
      (∃ n, assembleContext cfg store ranked =
        concatEntries ((renderedEntries cfg store ranked).take n)) ∧
      assembleContext cfg store ranked = assembleContext cfg store ranked :=
  ⟨assembleEntries_length_le _ _, assembleEntries_prefix _ _, rfl⟩

/-- C6: the enrichment toggles `enable_delta_analysis` and
`enable_pattern_detection` never change the ranked result set computed by
the Similarity Ranker — for any setting of the two flags the ranker returns
the same commits with the same scores in the same order. -/
theorem flags_do_not_change_ranking (cfg : Configuration)
    (store : List CommitRecord) (q : String) (d p : Bool) :
    rankerQuery (setEnrichment cfg d p) store q = rankerQuery cfg store q := rfl

/-- C1: once a Hook has been successfully constructed, `on_prompt_submit`
is a total function whose result is either the pipeline's successful result
or, whenever any internal stage fails, the empty injection result — no stage
error ever reaches the caller, and only `ConfigurationError` (from
`constructHook`) can. -/
theorem hook_fail_open (cfg : Configuration) (store : List CommitRecord)
    (h : Hook) (e : PromptEvent) (err : StageError)
    (hc : constructHook cfg store = .ok h)
    (herr : runPipeline h e = .error err) :
    on_prompt_submit h e = emptyInjection := by
  simp [on_prompt_submit, herr]

theorem hook_fail_open_witness :
    constructHook wConfig [] = .ok ⟨wConfig, []⟩ ∧
      runPipeline ⟨wConfig, []⟩ wEmptyEvent = .error .embeddingError ∧
      on_prompt_submit ⟨wConfig, []⟩ wEmptyEvent = emptyInjection :=
  ⟨by
    have h1 : ¬(wConfig.db_path = "" ∨ wConfig.repo_path = "") := by decide
    simp only [constructHook, if_neg h1]
    norm_num [wConfig],
   rfl,
   hook_fail_open wConfig [] ⟨wConfig, []⟩ wEmptyEvent .embeddingError
     (by
      have h1 : ¬(wConfig.db_path = "" ∨ wConfig.repo_path = "") := by decide
      simp only [constructHook, if_neg h1]
      norm_num [wConfig])
     rfl⟩

/-- C4: with an empty Vector Store, the store query returns an empty result
set (it is total, hence never raises), and `on_prompt_submit` on a Hook over
the empty store returns the empty injection result for every valid
configuration and every event, again without any exception. -/
theorem empty_store_safe (cfg : Configuration) (e : PromptEvent)
    (hv : validConfig cfg) :
    (∀ qv k, storeQuery [] qv k = []) ∧
      on_prompt_submit ⟨cfg, []⟩ e = emptyInjection := by
  refine ⟨fun qv k => by simp [storeQuery, scoreCandidates], ?_⟩
  cases hemb : embed e.userPrompt with
  | error err =>
    simp [on_prompt_submit, runPipeline, rankerQuery, hemb]
  | ok qv =>
    simp [on_prompt_submit, runPipeline, rankerQuery, hemb, finishPipeline,
      assembleContext, renderedEntries, rankedCandidates, keptCandidates,
      fetchCandidates, storeQuery, scoreCandidates, detectPatterns,
      assembleEntries, emptyInjection]

theorem empty_store_safe_witness :
    storeQuery [] [(1 : ℚ)] 4 = [] ∧
      on_prompt_submit ⟨wConfig, []⟩ wEvent = emptyInjection :=
  ⟨(empty_store_safe wConfig wEvent
      ⟨by decide, by decide, by norm_num [wConfig], by norm_num [wConfig],
       by norm_num [wConfig]⟩).1 [(1 : ℚ)] 4,
   (empty_store_safe wConfig wEvent
      ⟨by decide, by decide, by norm_num [wConfig], by norm_num [wConfig],
       by norm_num [wConfig]⟩).2⟩

lemma scoreCandidates_map_id (qv : List ℚ) (store : List CommitRecord) :
    (scoreCandidates qv store).map (fun s => s.record.id) = store.map CommitRecord.id := by
  simp [scoreCandidates, List.map_map, Function.comp_def]

lemma scenario_query_eval :
    rankerQuery scenarioConfig scenarioStore "x" =
      .ok [{ ref := "c1", score := 9/10 }, { ref := "c2", score := 3/4 }] := by
  have h1 : embed "x" = Except.ok [(1 : ℚ)] := rfl
  norm_num [rankerQuery, h1, rankedCandidates, keptCandidates, fetchCandidates,
    storeQuery, scoreCandidates, scenarioConfig, scenarioStore, dot, rankRel,
    List.insertionSort, List.orderedInsert, toSearchResult, overfetchFactor,
    List.filter]

/-- C2: every Search Result sequence returned by the Similarity Ranker has
similarity scores in non-increasing order, contains no duplicate commit
references (given the store's identifiers are distinct, as upsert-by-id
guarantees), and has length at most `max_results`. -/
theorem ranker_sorted_nodup_capped (cfg : Configuration) (store : List CommitRecord)
    (q : String) (res : List SearchResult)
    (hids : (store.map CommitRecord.id).Nodup)
    (hok : rankerQuery cfg store q = .ok res) :
    res.Pairwise (fun a b => b.score ≤ a.score) ∧
      (res.map SearchResult.ref).Nodup ∧ res.length ≤ cfg.max_results := by
  unfold rankerQuery at hok
  cases hemb : embed q with
  | error err => rw [hemb] at hok; exact absurd hok (by simp)
  | ok qv =>
    rw [hemb] at hok
    have hres : res =
        ((rankedCandidates cfg store qv).take cfg.max_results).map toSearchResult :=
      (Except.ok.inj hok).symm
    subst hres
    refine ⟨?_, ?_, ?_⟩
    · have hs : (rankedCandidates cfg store qv).Pairwise rankRel :=
        List.sorted_insertionSort rankRel _
      have ht : ((rankedCandidates cfg store qv).take cfg.max_results).Pairwise rankRel :=
        hs.sublist (List.take_sublist _ _)
      exact (List.pairwise_map).2 (ht.imp fun h => rankRel_score_le h)
    · have n1 : ((scoreCandidates qv store).map fun s => s.record.id).Nodup := by
        rw [scoreCandidates_map_id]; exact hids
      have p2 : List.Perm
          ((List.insertionSort rankRel (scoreCandidates qv store)).map
            fun s => s.record.id)
          ((scoreCandidates qv store).map fun s => s.record.id) :=
        (List.perm_insertionSort rankRel _).map _
      have n2 := p2.nodup_iff.mpr n1
      have n3 : ((fetchCandidates cfg store qv).map fun s => s.record.id).Nodup :=
        n2.sublist ((List.take_sublist _ _).map _)
      have n4 : ((keptCandidates cfg store qv).map fun s => s.record.id).Nodup :=
        n3.sublist ((List.filter_sublist _).map _)
      have p5 : List.Perm
          ((rankedCandidates cfg store qv).map fun s => s.record.id)
          ((keptCandidates cfg store qv).map fun s => s.record.id) :=
        (List.perm_insertionSort rankRel _).map _
      have n5 := p5.nodup_iff.mpr n4
      have n6 : (((rankedCandidates cfg store qv).take cfg.max_results).map
          fun s => s.record.id).Nodup :=
        n5.sublist ((List.take_sublist _ _).map _)
      simpa [List.map_map, Function.comp_def, toSearchResult] using n6
    · simp only [List.length_map, List.length_take]
      exact Nat.min_le_left _ _

theorem ranker_sorted_nodup_capped_witness :
    (scenarioStore.map CommitRecord.id).Nodup ∧
      (([{ ref := "c1", score := 9/10 }, { ref := "c2", score := 3/4 }] :
          List SearchResult).Pairwise (fun a b => b.score ≤ a.score) ∧
        (([{ ref := "c1", score := 9/10 }, { ref := "c2", score := 3/4 }] :
            List SearchResult).map SearchResult.ref).Nodup ∧
        ([{ ref := "c1", score := 9/10 }, { ref := "c2", score := 3/4 }] :
            List SearchResult).length ≤ scenarioConfig.max_results) :=
  ⟨by decide,
   ranker_sorted_nodup_capped scenarioConfig scenarioStore "x" _ (by decide)
     scenario_query_eval⟩

/-- C3: no returned Search Result scores below `similarity_threshold`, the
result length is the minimum of `max_results` and the number of surviving
candidates (a smaller surviving set is returned unpadded), and on the spec's
scenario — three commits scoring 0.9, 0.75, 0.4 with `max_results = 2` and
`similarity_threshold = 0.7` — exactly the first two commits are returned in
score order. -/
theorem ranker_threshold_unpadded (cfg : Configuration) (store : List CommitRecord)
    (q : String) (qv : List ℚ) (res : List SearchResult)
    (hemb : embed q = .ok qv) (hok : rankerQuery cfg store q = .ok res) :
    (∀ r ∈ res, cfg.similarity_threshold ≤ r.score) ∧
      res.length = min cfg.max_results (keptCandidates cfg store qv).length ∧
      rankerQuery scenarioConfig scenarioStore "x" =
        .ok [{ ref := "c1", score := 9/10 }, { ref := "c2", score := 3/4 }] := by
  unfold rankerQuery at hok
  rw [hemb] at hok
  have hres : res =
      ((rankedCandidates cfg store qv).take cfg.max_results).map toSearchResult :=
    (Except.ok.inj hok).symm
  subst hres
  refine ⟨?_, ?_, scenario_query_eval⟩
  · intro r hr
    obtain ⟨s, hs, hsr⟩ := List.mem_map.1 hr
    have hs' : s ∈ rankedCandidates cfg store qv := List.mem_of_mem_take hs
    have hs'' : s ∈ keptCandidates cfg store qv :=
      (List.mem_insertionSort rankRel).1 hs'
    have hpred := (List.mem_filter.1 hs'').2
    have hle : cfg.similarity_threshold ≤ s.score := of_decide_eq_true hpred
    rw [← hsr]
    exact hle
  · simp [List.length_map, List.length_take, rankedCandidates,
      List.length_insertionSort]

theorem ranker_threshold_unpadded_witness :
    embed "x" = .ok [(1 : ℚ)] ∧
      (([{ ref := "c1", score := 9/10 }, { ref := "c2", score := 3/4 }] :
          List SearchResult).length =
        min scenarioConfig.max_results
          (keptCandidates scenarioConfig scenarioStore [(1 : ℚ)]).length ∧
      rankerQuery scenarioConfig scenarioStore "x" =
        .ok [{ ref := "c1", score := 9/10 }, { ref := "c2", score := 3/4 }]) :=
  ⟨rfl,
   (ranker_threshold_unpadded scenarioConfig scenarioStore "x" [(1 : ℚ)] _ rfl
      scenario_query_eval).2⟩

lemma char_toNat_inj {a b : Char} (h : a.toNat = b.toNat) : a = b :=
  Char.eq_of_val_eq (UInt32.toNat.inj h)

lemma charsLt_nil_cons (b : Char) (bs : List Char) : charsLt [] (b :: bs) = true := rfl

lemma charsLt_nil_false {bs : List Char} (h : charsLt [] bs = false) : bs = [] := by
  cases bs with
  | nil => rfl
  | cons b bs => exact absurd h (by simp [charsLt])

lemma charsLt_asymm : ∀ as bs, charsLt as bs = true → charsLt bs as = false
  | [], [] => by simp [charsLt]
  | [], _ :: _ => fun _ => rfl
  | _ :: _, [] => by simp [charsLt]
  | a :: as, b :: bs => fun h => by
    by_cases h1 : a.toNat < b.toNat
    · have h2 : ¬ b.toNat < a.toNat := by omega
      simp [charsLt, h1, h2]
    · by_cases h2 : b.toNat < a.toNat
      · simp [charsLt, h1, h2] at h
      · have htail : charsLt as bs = true := by simpa [charsLt, h1, h2] using h
        simpa [charsLt, h1, h2] using charsLt_asymm as bs htail

lemma charsLt_false_trans : ∀ as bs cs, charsLt as bs = false → charsLt bs cs = false →
    charsLt as cs = false
  | as, bs, [], _, _ => by cases as <;> rfl
  | as, bs, _ :: _, h1, h2 => by
    cases bs with
    | nil => rw [charsLt_nil_false h2] at *; exact h1
    | cons b bs =>
      cases as with
      | nil => exact absurd h1 (by simp [charsLt])
      | cons a as =>
        rename_i c cs
        have hab : ¬ a.toNat < b.toNat := by
          intro hlt
          rw [charsLt, if_pos hlt] at h1
          exact Bool.true_eq_false.mp h1
        have hbc : ¬ b.toNat < c.toNat := by
          intro hlt
          rw [charsLt, if_pos hlt] at h2
          exact Bool.true_eq_false.mp h2
        have hac : ¬ a.toNat < c.toNat := by omega
        rw [charsLt, if_neg hac]
        by_cases hca : c.toNat < a.toNat
        · rw [if_pos hca]
        · rw [if_neg hca]
          have hba : ¬ b.toNat < a.toNat := by omega
          have hcb : ¬ c.toNat < b.toNat := by omega
          rw [charsLt, if_neg hab, if_neg hba] at h1
          rw [charsLt, if_neg hbc, if_neg hcb] at h2
          exact charsLt_false_trans as bs cs h1 h2

lemma charsLt_conn : ∀ as bs, charsLt as bs = false → charsLt bs as = false → as = bs
  | [], [], _, _ => rfl
  | [], _ :: _, h1, _ => absurd h1 (by simp [charsLt])
  | _ :: _, [], _, h2 => absurd h2 (by simp [charsLt])
  | a :: as, b :: bs, h1, h2 => by
    have hab : ¬ a.toNat < b.toNat := by
      intro hlt
      rw [charsLt, if_pos hlt] at h1
      exact Bool.true_eq_false.mp h1
    have hba : ¬ b.toNat < a.toNat := by
      intro hlt
      rw [charsLt, if_pos hlt] at h2
      exact Bool.true_eq_false.mp h2
    rw [charsLt, if_neg hab, if_neg hba] at h1
    rw [charsLt, if_neg hba, if_neg hab] at h2
    have heq : a = b := char_toNat_inj (by omega)
    rw [heq, charsLt_conn as bs h1 h2]

instance : IsTotal String fileLe where
  total a b := by
    unfold fileLe
    cases h : charsLt b.data a.data with
    | false => exact Or.inl rfl
    | true => exact Or.inr (charsLt_asymm _ _ h)

instance : IsTrans String fileLe where
  trans a b c h1 h2 := charsLt_false_trans c.data b.data a.data h2 h1

instance : IsAntisymm String fileLe where
  antisymm a b h1 h2 := by
    have hd : a.data = b.data := charsLt_conn a.data b.data h2 h1
    cases a with
    | mk la => cases b with
      | mk lb =>
        simp only at hd
        rw [hd]

lemma extract_perm_invariant (fs : String → Option String)
    (files₁ files₂ : List String) (hp : List.Perm files₁ files₂) :
    extract_test_cases fs files₁ = extract_test_cases fs files₂ := by
  unfold extract_test_cases
  congr 1
  exact List.eq_of_perm_of_sorted
    ((List.perm_insertionSort fileLe files₁).trans
      (hp.trans (List.perm_insertionSort fileLe files₂).symm))
    (List.sorted_insertionSort fileLe files₁)
    (List.sorted_insertionSort fileLe files₂)

lemma mem_allCases_addToCategory (tc' : TestCase) :
    ∀ (cats : List (String × List TestCase)) (c : String) (tc : TestCase),
      tc' ∈ allCases (addToCategory cats c tc) ↔ tc' ∈ allCases cats ∨ tc' = tc
  | [], c, tc => by simp [addToCategory, allCases]
  | (c', ts) :: rest, c, tc => by
    by_cases h : c' == c
    · simp only [addToCategory, if_pos h, allCases, List.mem_append, List.mem_singleton]
      tauto
    · simp only [addToCategory, if_neg h, allCases, List.mem_append,
        mem_allCases_addToCategory tc' rest c tc]
      tauto

/-- One full case analysis of the generator's loop body: a file is either
excluded (mapping unchanged) or included (its case, with non-empty grammar
and input, is appended under its category). -/
lemma processFile_spec (fs : String → Option String)
    (cats : List (String × List TestCase)) (f : String) :
    (excludedCond fs f ∧ processFile fs cats f = cats) ∨
      (¬ excludedCond fs f ∧
        processFile fs cats f =
          addToCategory cats (get_category (stemOf f)) (mkCase fs f) ∧
        (mkCase fs f).grammar ≠ "" ∧ (mkCase fs f).input ≠ "" ∧
        (mkCase fs f).id = stemOf f) := by
  cases hskip : SKIP_TESTS.contains (stemOf f) with
  | true =>
    have hskip' : stemOf f ∈ SKIP_TESTS := by simpa using hskip
    exact Or.inl ⟨Or.inl hskip, by simp [processFile, hskip']⟩
  | false =>
    have hskip' : stemOf f ∉ SKIP_TESTS := by simpa using hskip
    cases hg : read_file_safe fs f with
    | none =>
      exact Or.inl ⟨Or.inr (Or.inl hg), by simp [processFile, hskip', hg]⟩
    | some g =>
      by_cases hge : g = ""
      · subst hge
        exact Or.inl ⟨Or.inr (Or.inr (Or.inl hg)), by simp [processFile, hskip', hg]⟩
      · cases hi : read_file_safe fs (stemOf f ++ ".inp") with
        | none =>
          refine Or.inl ⟨Or.inr (Or.inr (Or.inr (Or.inl hi))), ?_⟩
          simp [processFile, hskip', hg, hi, hge]
        | some i =>
          by_cases hie : i = ""
          · subst hie
            refine Or.inl ⟨Or.inr (Or.inr (Or.inr (Or.inr hi))), ?_⟩
            simp [processFile, hskip', hg, hi, hge]
          · refine Or.inr ⟨?_, ?_, ?_, ?_, rfl⟩
            · rintro (h | h | h | h | h)
              · rw [hskip] at h; exact Bool.false_ne_true h
              · rw [hg] at h; exact Option.noConfusion h
              · rw [hg] at h; exact hge (Option.some.inj h)
              · rw [hi] at h; exact Option.noConfusion h
              · rw [hi] at h; exact hie (Option.some.inj h)
            · simp [processFile, hskip', hg, hi, hge, hie, mkCase]
            · simpa [mkCase, hg] using hge
            · simpa [mkCase, hi] using hie

lemma mentions_processFile (fs : String → Option String)
    (cats : List (String × List TestCase)) (f : String) (s : String) :
    mentions (processFile fs cats f) s ↔
      mentions cats s ∨ (¬ excludedCond fs f ∧ stemOf f = s) := by
  rcases processFile_spec fs cats f with ⟨hex, heq⟩ | ⟨hnex, heq, _, _, hid⟩
  · rw [heq]
    simp only [iff_self_or]
    rintro ⟨hn, _⟩
    exact absurd hex hn
  · rw [heq]
    unfold mentions
    constructor
    · rintro ⟨tc, htc, hids⟩
      rcases (mem_allCases_addToCategory tc cats _ _).1 htc with h | h
      · exact Or.inl ⟨tc, h, hids⟩
      · subst h
        exact Or.inr ⟨hnex, hid ▸ hids⟩
    · rintro (⟨tc, htc, hids⟩ | ⟨_, hstem⟩)
      · exact ⟨tc, (mem_allCases_addToCategory tc cats _ _).2 (Or.inl htc), hids⟩
      · exact ⟨mkCase fs f, (mem_allCases_addToCategory _ cats _ _).2 (Or.inr rfl),
          hid.trans hstem⟩

lemma goodCases_processFile (fs : String → Option String)
    (cats : List (String × List TestCase)) (f : String)
    (hg : goodCases cats) : goodCases (processFile fs cats f) := by
  rcases processFile_spec fs cats f with ⟨_, heq⟩ | ⟨_, heq, hgr, hin, _⟩
  · rwa [heq]
  · rw [heq]
    intro tc htc
    rcases (mem_allCases_addToCategory tc cats _ _).1 htc with h | h
    · exact hg tc h
    · subst h
      exact ⟨hgr, hin⟩

lemma mentions_foldl (fs : String → Option String) (s : String) :
    ∀ (files : List String) (acc : List (String × List TestCase)),
      mentions (files.foldl (processFile fs) acc) s ↔
        mentions acc s ∨ ∃ f ∈ files, ¬ excludedCond fs f ∧ stemOf f = s
  | [], acc => by simp
  | f :: rest, acc => by
    rw [List.foldl_cons, mentions_foldl fs s rest (processFile fs acc f)]
    rw [mentions_processFile]
    simp only [List.mem_cons]
    constructor
    · rintro ((h | h) | ⟨f', hf', hc⟩)
      · exact Or.inl h
      · exact Or.inr ⟨f, Or.inl rfl, h⟩
      · exact Or.inr ⟨f', Or.inr hf', hc⟩
    · rintro (h | ⟨f', (hf' | hf'), hc⟩)
      · exact Or.inl (Or.inl h)
      · exact Or.inl (Or.inr (hf' ▸ hc))
      · exact Or.inr ⟨f', hf', hc⟩

lemma goodCases_foldl (fs : String → Option String) :
    ∀ (files : List String) (acc : List (String × List TestCase)),
      goodCases acc → goodCases (files.foldl (processFile fs) acc)
  | [], _, h => h
  | f :: rest, acc, h =>
    goodCases_foldl fs rest _ (goodCases_processFile fs acc f h)

/-- C8: a `.ixml` file of the tests directory is excluded from the
generator's output exactly when its stem is in `SKIP_TESTS`, or its grammar
file or matching `.inp` file is missing, undecodable, or empty after
stripping whitespace; consequently every emitted test case has non-empty
grammar and input (and the totality of `read_file_safe` means read failures
never escape `extract_test_cases`). -/
theorem generator_inclusion (fs : String → Option String) (files : List String)
    (file : String) (hmem : file ∈ files)
    (huniq : ∀ f' ∈ files, stemOf f' = stemOf file → f' = file) :
    (¬ mentions (extract_test_cases fs files) (stemOf file) ↔
        excludedCond fs file) ∧
      ∀ tc ∈ allCases (extract_test_cases fs files),
        tc.grammar ≠ "" ∧ tc.input ≠ "" := by
  constructor
  · unfold extract_test_cases
    rw [mentions_foldl]
    simp only [mentions, allCases, List.not_mem_nil, false_and, exists_false,
      false_or]
    constructor
    · intro hno
      by_contra hex
      exact hno ⟨file, (List.mem_insertionSort fileLe).2 hmem, hex, rfl⟩
    · rintro hexcl ⟨f', hf', hnex, hstem⟩
      have hf : f' = file :=
        huniq f' ((List.mem_insertionSort fileLe).1 hf') hstem
      subst hf
      exact hnex hexcl
  · exact goodCases_foldl fs _ [] (by simp [goodCases, allCases])

theorem generator_inclusion_witness :
    ¬ mentions (extract_test_cases wFs ["aaa.ixml"]) (stemOf "aaa.ixml") ↔
      excludedCond wFs "aaa.ixml" :=
  (generator_inclusion wFs ["aaa.ixml"] "aaa.ixml" (by simp)
    (by intro f' hf' _; simpa using hf')).1

lemma get_category_mem_order (n : String) : get_category n ∈ category_order := by
  unfold get_category
  cases h : CATEGORIES.find? fun p => p.2.contains n with
  | none => simp [category_order]
  | some p =>
    have hp : p ∈ CATEGORIES := List.mem_of_find?_eq_some h
    have hall : ∀ q ∈ CATEGORIES, q.1 ∈ category_order := by decide
    exact hall p hp

lemma keys_addToCategory_mem :
    ∀ (cats : List (String × List TestCase)) (c : String) (tc : TestCase),
      c ∈ cats.map Prod.fst →
      (addToCategory cats c tc).map Prod.fst = cats.map Prod.fst
  | [], c, tc, h => by simp at h
  | (c', ts) :: rest, c, tc, h => by
    rw [List.map_cons, List.mem_cons] at h
    by_cases hc : c' == c
    · simp [addToCategory, hc]
    · have hc' : c ≠ c' := fun hh => hc (by simp [hh])
      have hrest : c ∈ rest.map Prod.fst := h.resolve_left hc'
      simp [addToCategory, hc, keys_addToCategory_mem rest c tc hrest]

lemma keys_addToCategory_not_mem :
    ∀ (cats : List (String × List TestCase)) (c : String) (tc : TestCase),
      c ∉ cats.map Prod.fst →
      (addToCategory cats c tc).map Prod.fst = cats.map Prod.fst ++ [c]
  | [], c, tc, _ => by simp [addToCategory]
  | (c', ts) :: rest, c, tc, h => by
    have hc : ¬ (c' == c) := by
      intro hh
      exact h (by simp [List.mem_cons]; exact Or.inl (eq_of_beq hh).symm)
    have hrest : c ∉ rest.map Prod.fst := fun hh => h (List.mem_cons_of_mem _ hh)
    simp [addToCategory, hc, keys_addToCategory_not_mem rest c tc hrest]

lemma nonnil_addToCategory (cats : List (String × List TestCase)) (c : String)
    (tc : TestCase) (h : ∀ p ∈ cats, p.2 ≠ []) :
    ∀ p ∈ addToCategory cats c tc, p.2 ≠ [] := by
  induction cats with
  | nil => simp [addToCategory]
  | cons q rest ih =>
    obtain ⟨c', ts⟩ := q
    by_cases hc : c' == c
    · simp only [addToCategory, if_pos hc]
      intro p hp
      rcases (List.mem_cons).1 hp with h' | h'
      · subst h'; simp
      · exact h p (List.mem_cons_of_mem _ h')
    · simp only [addToCategory, if_neg hc]
      intro p hp
      rcases (List.mem_cons).1 hp with h' | h'
      · subst h'; exact h _ (List.mem_cons_self _ _)
      · exact ih (fun q hq => h q (List.mem_cons_of_mem _ hq)) p h'

lemma keysGood_processFile (fs : String → Option String)
    (cats : List (String × List TestCase)) (f : String)
    (hk : keysGood cats) : keysGood (processFile fs cats f) := by
  rcases processFile_spec fs cats f with ⟨_, heq⟩ | ⟨_, heq, _, _, _⟩
  · rwa [heq]
  · rw [heq]
    obtain ⟨hnd, hord, hnn⟩ := hk
    by_cases hmem : get_category (stemOf f) ∈ cats.map Prod.fst
    · rw [keysGood, keys_addToCategory_mem cats _ _ hmem]
      exact ⟨hnd, hord, nonnil_addToCategory cats _ _ hnn⟩
    · rw [keysGood, keys_addToCategory_not_mem cats _ _ hmem]
      refine ⟨?_, ?_, nonnil_addToCategory cats _ _ hnn⟩
      · simp [List.nodup_append, hnd, hmem]
      · intro k hkm
        rcases (List.mem_append).1 hkm with h' | h'
        · exact hord k h'
        · rw [List.mem_singleton.1 h']
          exact get_category_mem_order _

lemma keysGood_foldl (fs : String → Option String) :
    ∀ (files : List String) (acc : List (String × List TestCase)),
      keysGood acc → keysGood (files.foldl (processFile fs) acc)
  | [], _, h => h
  | f :: rest, acc, h =>
    keysGood_foldl fs rest _ (keysGood_processFile fs acc f h)

lemma keysGood_extract (fs : String → Option String) (files : List String) :
    keysGood (extract_test_cases fs files) := by
  unfold extract_test_cases
  refine keysGood_foldl fs _ [] ⟨List.nodup_nil, ?_, ?_⟩ <;> simp

lemma mem_of_lookup_eq_some {c : String} {ts : List TestCase} :
    ∀ {cats : List (String × List TestCase)},
      List.lookup c cats = some ts → (c, ts) ∈ cats
  | [], h => by simp [List.lookup] at h
  | (c', ts') :: rest, h => by
    by_cases hc : c == c'
    · simp only [List.lookup, hc] at h
      injection h with hts
      subst hts
      rw [eq_of_beq hc]
      exact List.mem_cons_self _ _
    · have hcf : (c == c') = false := by simpa using hc
      simp only [List.lookup, hcf] at h
      exact List.mem_cons_of_mem _ (mem_of_lookup_eq_some h)

lemma lookup_eq_some_of_mem {c : String} {ts : List TestCase} :
    ∀ {cats : List (String × List TestCase)},
      (cats.map Prod.fst).Nodup → (c, ts) ∈ cats → List.lookup c cats = some ts
  | [], _, h => by simp at h
  | (c', ts') :: rest, hnd, h => by
    rcases (List.mem_cons).1 h with h' | h'
    · injection h' with h1 h2
      subst h1
      subst h2
      simp [List.lookup]
    · have hne : ¬ (c == c') := by
        intro hb
        have hcm : c ∈ rest.map Prod.fst :=
          List.mem_map.2 ⟨(c, ts), h', rfl⟩
        rw [List.map_cons, List.nodup_cons] at hnd
        exact hnd.1 ((eq_of_beq hb) ▸ hcm)
      have hcf : (c == c') = false := by simpa using hne
      simp only [List.lookup, hcf]
      exact lookup_eq_some_of_mem
        (by rw [List.map_cons, List.nodup_cons] at hnd; exact hnd.2) h'

lemma keys_filterMapLookup (cats : List (String × List TestCase)) :
    ∀ (l : List String),
      (l.filterMap fun cat =>
        (List.lookup cat cats).map fun ts => (cat, ts)).map Prod.fst =
        l.filter fun cat => (List.lookup cat cats).isSome
  | [] => rfl
  | c :: rest => by
    cases h : List.lookup c cats with
    | none => simp [h, keys_filterMapLookup cats rest]
    | some ts => simp [h, keys_filterMapLookup cats rest]

lemma sorted_perm_categories (cats : List (String × List TestCase))
    (hk : keysGood cats) :
    List.Perm
      (category_order.filterMap fun cat =>
        (List.lookup cat cats).map fun ts => (cat, ts))
      cats := by
  obtain ⟨hnd, hord, _⟩ := hk
  have horder_nodup : category_order.Nodup := by decide
  have hnd₁ : (category_order.filterMap fun cat =>
      (List.lookup cat cats).map fun ts => (cat, ts)).Nodup := by
    apply List.Nodup.of_map Prod.fst
    rw [keys_filterMapLookup]
    exact horder_nodup.filter _
  have hnd₂ : cats.Nodup := List.Nodup.of_map Prod.fst hnd
  refine (List.perm_ext_iff_of_nodup hnd₁ hnd₂).2 ?_
  intro p
  obtain ⟨c, ts⟩ := p
  rw [List.mem_filterMap]
  constructor
  · rintro ⟨cat, _, hmap⟩
    rcases Option.map_eq_some'.1 hmap with ⟨ts', hl, hpair⟩
    injection hpair with hc1 hts1
    subst hc1
    subst hts1
    exact mem_of_lookup_eq_some hl
  · intro hmem
    refine ⟨c, ?_, ?_⟩
    · exact hord c (List.mem_map.2 ⟨(c, ts), hmem, rfl⟩)
    · rw [lookup_eq_some_of_mem hnd hmem]
      rfl

/-- C9: in the generated JSON, `stats.total_tests` is the sum of the
category list lengths over the emitted categories mapping,
`stats.categories` is the number of emitted categories, and the mapping
lists exactly the non-empty categories in the fixed `category_order`
order. -/
theorem generator_stats (fs : String → Option String) (files : List String) :
    (mainOutput fs files).stats.total_tests =
      ((mainOutput fs files).categories.map fun p => p.2.length).sum ∧
      (mainOutput fs files).stats.categories =
        (mainOutput fs files).categories.length ∧
      List.Sublist ((mainOutput fs files).categories.map Prod.fst) category_order ∧
      ∀ p ∈ (mainOutput fs files).categories, p.2 ≠ [] := by
  have hk := keysGood_extract fs files
  have hperm := sorted_perm_categories _ hk
  refine ⟨?_, ?_, ?_, ?_⟩
  · exact ((hperm.map fun p => p.2.length).sum_eq).symm
  · exact hperm.length_eq.symm
  · show List.Sublist ((category_order.filterMap fun cat =>
      (List.lookup cat (extract_test_cases fs files)).map fun ts => (cat, ts)).map
        Prod.fst) category_order
    rw [keys_filterMapLookup]
    exact List.filter_sublist _
  · intro p hp
    exact hk.2.2 p (hperm.mem_iff.1 hp)

theorem generator_stats_witness :
    (mainOutput wFs ["aaa.ixml"]).stats.total_tests =
      ((mainOutput wFs ["aaa.ixml"]).categories.map fun p => p.2.length).sum ∧
      (mainOutput wFs ["aaa.ixml"]).stats.categories =
        (mainOutput wFs ["aaa.ixml"]).categories.length ∧
      List.Sublist ((mainOutput wFs ["aaa.ixml"]).categories.map Prod.fst)
        category_order :=
  ⟨(generator_stats wFs ["aaa.ixml"]).1, (generator_stats wFs ["aaa.ixml"]).2.1,
   (generator_stats wFs ["aaa.ixml"]).2.2.1⟩

lemma find?_first {α : Type} (p : α → Bool) :
    ∀ (l : List α) (i : Nat) (hi : i < l.length),
      p (l.get ⟨i, hi⟩) = true →
      (∀ j (hj : j < i), p (l.get ⟨j, Nat.lt_trans hj hi⟩) = false) →
      l.find? p = some (l.get ⟨i, hi⟩)
  | a :: l, 0, _, hp, _ => List.find?_cons_of_pos _ hp
  | a :: l, i + 1, hi, hp, hprev => by
    have ha : p a = false := hprev 0 (Nat.succ_pos i)
    rw [List.find?_cons_of_neg _ (by simp [ha])]
    exact find?_first p l i (Nat.lt_of_succ_lt_succ hi) hp
      (fun j hj => hprev (j + 1) (Nat.succ_lt_succ hj))

/-- C10: `get_category` is total and deterministic — it returns the first
category of `CATEGORIES` whose list contains the test name, and `Other` when
no list does; and since `extract_test_cases` sorts the globbed file names,
any two enumeration orders of the same directory contents produce identical
generator output. -/
theorem category_first_match_and_order_determinism (n : String)
    (fs : String → Option String) :
    ((∀ p ∈ CATEGORIES, n ∉ p.2) → get_category n = "Other") ∧
      (∀ i (hi : i < CATEGORIES.length), n ∈ (CATEGORIES.get ⟨i, hi⟩).2 →
        (∀ j (hj : j < i), n ∉ (CATEGORIES.get ⟨j, Nat.lt_trans hj hi⟩).2) →
        get_category n = (CATEGORIES.get ⟨i, hi⟩).1) ∧
      ∀ files₁ files₂, List.Perm files₁ files₂ →
        extract_test_cases fs files₁ = extract_test_cases fs files₂ := by
  refine ⟨?_, ?_, fun f1 f2 hp => extract_perm_invariant fs f1 f2 hp⟩
  · intro hnone
    have hfind : (CATEGORIES.find? fun p => p.2.contains n) = none :=
      List.find?_eq_none.2 fun p hp => by simpa using hnone p hp
    unfold get_category
    rw [hfind]
  · intro i hi hmem hfirst
    have hfind := find?_first (fun p => p.2.contains n) CATEGORIES i hi
      (by simpa using hmem) fun j hj => by simpa using hfirst j hj
    unfold get_category
    rw [hfind]

theorem category_first_match_witness :
    get_category "json" = (CATEGORIES.get ⟨2, by decide⟩).1 ∧
      extract_test_cases wFs ["json.ixml", "aaa.ixml"] =
        extract_test_cases wFs ["aaa.ixml", "json.ixml"] :=
  ⟨(category_first_match_and_order_determinism "json" wFs).2.1 2 (by decide)
      (by decide) (by decide),
   (category_first_match_and_order_determinism "json" wFs).2.2 _ _
      (List.Perm.swap _ _ _)⟩

end Rustixml
